import Mathlib

/-!
Shallow embedding of the Uri::Uri class (Uri.cpp, the complete variant
with scheme validation and userinfo decoding) and proofs about its
parsing pipeline.  C++ strings are modeled as lists of characters,
size_t indices as Nat, the uint32_t port accumulator as a Nat reduced
mod 2^32 at every step, and a call that lets a C++ exception escape
(std::stoi / std::string::substr in the percent-decoding loop) is
modeled as the value none.
-/

namespace UriModel

/-- Strings of the C++ sources are modeled as lists of characters. -/
abbrev Str := List Char

/-- models std::string::find(char): index of the first occurrence, none for npos. -/
def strFind (c : Char) : Str → Option Nat
  | [] => none
  | x :: xs => if x = c then some 0 else (strFind c xs).map (· + 1)

/-- models std::string::find(char, pos): first occurrence at index pos or later. -/
def strFindFrom (c : Char) (s : Str) (pos : Nat) : Option Nat :=
  (strFind c (s.drop pos)).map (· + pos)

/-- true when the list starts with the given character. -/
def headIs (c : Char) : Str → Bool
  | [] => false
  | y :: _ => y == c

/-- models std::string::find(s) for a two-character needle such as the string of two slashes:
    first index where the needle occurs in full. -/
def strFind2 (c1 c2 : Char) : Str → Option Nat
  | [] => none
  | x :: xs => if x == c1 && headIs c2 xs then some 0 else (strFind2 c1 c2 xs).map (· + 1)

/-- models std::string::find_first_of(chars): first index holding any of the given characters. -/
def strFindAny (cs : List Char) : Str → Option Nat
  | [] => none
  | x :: xs => if cs.contains x then some 0 else (strFindAny cs xs).map (· + 1)

/-- models std::string::find_first_of(chars, pos): search starting at index pos. -/
def strFindAnyFrom (cs : List Char) (s : Str) (pos : Nat) : Option Nat :=
  (strFindAny cs (s.drop pos)).map (· + pos)

/-- models the two-argument std::string::substr(pos, len); the C++ length clamp at the
    end of the string is the behaviour of take. -/
def substr (s : Str) (pos len : Nat) : Str := (s.drop pos).take len

/-- models the one-argument std::string::substr(pos). -/
def substrFrom (s : Str) (pos : Nat) : Str := s.drop pos

/-- the character class A-Za-z of the validation regexes. -/
def isAlphaCh (c : Char) : Bool :=
  (decide ('A' ≤ c) && decide (c ≤ 'Z')) || (decide ('a' ≤ c) && decide (c ≤ 'z'))

/-- the character class 0-9 of the validation regexes, and the comparison pair
    (c < '0' || c > '9') of the port loop, which is its negation. -/
def isDigitCh (c : Char) : Bool := decide ('0' ≤ c) && decide (c ≤ '9')

/-- the character class 0-9A-Fa-f used by the userinfo validation regex. -/
def isHexDigitCh (c : Char) : Bool :=
  isDigitCh c || (decide ('A' ≤ c) && decide (c ≤ 'F')) || (decide ('a' ≤ c) && decide (c ≤ 'f'))

/-- body character test of the scheme regex [A-Za-z0-9+\-.]. -/
def schemeCharOk (c : Char) : Bool :=
  isAlphaCh c || isDigitCh c || c == '+' || c == '-' || c == '.'

/-- models regex_match against the anchored scheme regex of Uri::parseScheme:
    one leading letter followed by letters, digits, plus, minus or dot. -/
def schemeMatches : Str → Bool
  | [] => false
  | c :: rest => isAlphaCh c && rest.all schemeCharOk

/-- models Uri::parseScheme of the complete variant: locate the first colon (none
    means no scheme), treat the URI as schemeless when a slash occurs before the
    colon, otherwise validate the candidate against the scheme regex.  none models
    the parse failure (return false), some (scheme, nextIdx) the successful return. -/
def parseScheme (uri : Str) : Option (Str × Nat) :=
  match strFind ':' uri with
  | none => some ([], 0)
  | some schemeEnd =>
    let dotSegBefore :=
      match strFind '/' uri with
      | some dotSegment => decide (dotSegment < schemeEnd)
      | none => false
    if dotSegBefore then some ([], 0)
    else
      let schemeString := substr uri 0 schemeEnd
      if schemeMatches schemeString then some (schemeString, schemeEnd + 1) else none

/-- models Uri::parseAuthority: locate the double slash (none means no authority,
    as does a standalone slash occurring before it), let the authority end at the
    first slash, question mark or hash after it (or the end of the string), and
    return uri.substr(doubleForwardSlash + 2, authorityEnd - 2) together with
    nextIdx = authorityEnd, exactly as the source computes them. -/
def parseAuthority (uri : Str) : Str × Nat :=
  match strFind2 '/' '/' uri with
  | none => ([], 0)
  | some doubleForwardSlash =>
    let slashBefore :=
      match strFind '/' uri with
      | some dotSegment => decide (dotSegment < doubleForwardSlash)
      | none => false
    if slashBefore then ([], 0)
    else
      let authorityEnd :=
        match strFindAnyFrom ['/', '?', '#'] uri (doubleForwardSlash + 2) with
        | some e => e
        | none => uri.length
      (substr uri (doubleForwardSlash + 2) (authorityEnd - 2), authorityEnd)

/-- character class of the userinfo validation regex besides pct-encoded:
    digits, letters, and the RFC 3986 unreserved marks, sub-delims and colon. -/
def userInfoCharOk (c : Char) : Bool :=
  isDigitCh c || isAlphaCh c ||
    ['-', '.', '_', '~', '!', '$', '&', Char.ofNat 39, '(', ')', '*', '+', ',', ';', ':',
      '='].contains c

/-- models regex_match against the anchored userinfo regex of
    Uri::parseAuthorityComponents: a sequence of pct-encoded triples (percent and
    exactly two hex digits) and allowed plain characters. -/
def userInfoMatches : Str → Bool
  | [] => true
  | c :: rest =>
    if c == '%' then
      match rest with
      | a :: b :: rest2 => isHexDigitCh a && isHexDigitCh b && userInfoMatches rest2
      | _ => false
    else userInfoCharOk c && userInfoMatches rest

/-- numeric value of a hex digit character. -/
def hexDigitVal (c : Char) : Nat :=
  if isDigitCh c then c.toNat - '0'.toNat
  else if decide ('A' ≤ c) && decide (c ≤ 'F') then c.toNat - 'A'.toNat + 10
  else c.toNat - 'a'.toNat + 10

/-- value accumulated over a maximal run of leading hex digits. -/
def hexRunAcc (acc : Nat) : Str → Nat
  | [] => acc
  | c :: rest => if isHexDigitCh c then hexRunAcc (acc * 16 + hexDigitVal c) rest else acc

/-- longest leading run of hex digits; none when it is empty. -/
def hexRun : Str → Option Nat
  | [] => none
  | c :: rest => if isHexDigitCh c then some (hexRunAcc (hexDigitVal c) rest) else none

/-- whitespace skipped by std::stoi. -/
def isSpaceCh (c : Char) : Bool :=
  [' ', '\t', '\n', Char.ofNat 11, Char.ofNat 12, '\r'].contains c

/-- digit part of std::stoi with base 16: an optional 0x or 0X prefix (consumed only
    when a hex digit follows, as strtol does) and then a maximal hex-digit run;
    none when no digit can be consumed (std::invalid_argument). -/
def stoiHexDigits (s : Str) : Option Nat :=
  match s with
  | '0' :: x :: d :: rest =>
    if (x == 'x' || x == 'X') && isHexDigitCh d then hexRun (d :: rest) else hexRun s
  | _ => hexRun s

/-- models std::stoi(s, NULL, 16) as called by the percent-decoding loop on
    strings of at most two characters: skip leading whitespace, consume an
    optional sign, then parse hex digits; none models the std::invalid_argument
    exception when no digit is found.  (std::out_of_range cannot occur here:
    at most two hex digits give a value of at most 255.) -/
def stoiHex (s : Str) : Option Int :=
  let s1 := s.dropWhile isSpaceCh
  match s1 with
  | '-' :: rest => (stoiHexDigits rest).map (fun n => -(n : Int))
  | '+' :: rest => (stoiHexDigits rest).map (fun n => (n : Int))
  | _ => (stoiHexDigits s1).map (fun n => (n : Int))

/-- models the percent-decoding while-loop of Uri::parseAuthorityComponents:
    while a percent character is found (searching the whole string again on
    every iteration), replace the three characters starting at it by the byte
    named by the two following characters.  The byte is (char)std::stoi(..., 16),
    modeled as the stoi value taken mod 256.  none models an exception escaping
    the loop: std::stoi on a run with no hex digit, or std::string::substr when
    pctDelim + 3 exceeds the length.  The fuel argument only bounds the
    recursion; every executed iteration shortens the string by two characters,
    so the initial fuel of length + 1 is never exhausted. -/
def decodePctLoop : Nat → Str → Option Str
  | 0, _ => none
  | fuel + 1, userInfo =>
    match strFind '%' userInfo with
    | none => some userInfo
    | some pctDelim =>
      match stoiHex (substr userInfo (pctDelim + 1) 2) with
      | none => none
      | some v =>
        if pctDelim + 3 ≤ userInfo.length then
          decodePctLoop fuel
            (substr userInfo 0 pctDelim ++ [Char.ofNat (v % 256).toNat] ++
              substrFrom userInfo (pctDelim + 3))
        else none

/-- the percent-decoding loop started with enough fuel. -/
def decodePct (userInfo : Str) : Option Str := decodePctLoop (userInfo.length + 1) userInfo

/-- models the private properties of a Uri instance (struct Uri::Impl). -/
structure Impl where
  scheme : Str
  userInfo : Str
  host : Str
  hasPort : Bool
  port : Nat
  path : List Str
  query : Str
  fragment : Str
deriving DecidableEq, Repr

/-- a freshly constructed instance: default-initialized fields. -/
def implInit : Impl :=
  { scheme := [], userInfo := [], host := [], hasPort := false, port := 0,
    path := [], query := [], fragment := [] }

/-- models the first half of Uri::parseAuthorityComponents: the field clearing
    and the userinfo block.  none models an exception escaping from the decode
    loop; some (false, impl) the validation failure (return false); and
    some (true, impl, nextIdx) falling through to the port block. -/
def userInfoResult (impl : Impl) (authority : Str) : Option (Bool × Impl × Nat) :=
  let impl0 := { impl with userInfo := [], host := [], port := 0, hasPort := false }
  match strFind '@' authority with
  | none => some (true, impl0, 0)
  | some userinfoDelim =>
    let userInfo := substr authority 0 userinfoDelim
    if userInfoMatches userInfo then
      match decodePct userInfo with
      | none => none
      | some decoded => some (true, { impl0 with userInfo := decoded }, userinfoDelim + 1)
    else some (false, impl0, 0)

/-- models the digit loop of Uri::parseAuthorityComponents.  port32bits is a
    uint32_t, so the accumulation is reduced mod 4294967296 = 2^32; the overflow
    test (port32bits & ~((1 << 16) - 1)) != 0 masks with the 32-bit value of
    ~((1 << 16) - 1), which is 4294901760 = 0xFFFF0000. -/
def portLoop (port32bits : Nat) : Str → Option Nat
  | [] => some port32bits
  | c :: rest =>
    if decide (c < '0') || decide ('9' < c) then none
    else
      let p := (port32bits * 10 + (c.toNat - '0'.toNat)) % 4294967296
      if (p &&& 4294901760) ≠ 0 then none
      else portLoop p rest

/-- models the second half of Uri::parseAuthorityComponents: the search for the
    port delimiter from nextIdx on, the digit loop, and the assignment of host
    (and of port and hasPort, with the uint16_t cast reducing mod 65536). -/
def portHostResult (impl : Impl) (authority : Str) (nextIdx : Nat) : Bool × Impl :=
  match strFindFrom ':' authority nextIdx with
  | some portDelim =>
    match portLoop 0 (substrFrom authority (portDelim + 1)) with
    | none => (false, impl)
    | some port32bits =>
      (true,
        { impl with port := port32bits % 65536, hasPort := true,
                    host := substr authority nextIdx (portDelim - nextIdx) })
  | none => (true, { impl with host := substrFrom authority nextIdx })

/-- models Uri::parseAuthorityComponents as the composition of its two halves. -/
def parseAuthorityComponents (impl : Impl) (authority : Str) : Option (Bool × Impl) :=
  match userInfoResult impl authority with
  | none => none
  | some (false, impl1, _) => some (false, impl1)
  | some (true, impl1, nextIdx) => some (portHostResult impl1 authority nextIdx)

/-- models the fragment step of Uri::ParseFromString: clear the fragment, then
    if a hash is found store everything after it and truncate the rest to
    everything before it. -/
def splitFragment (impl : Impl) (rest : Str) : Impl × Str :=
  match strFind '#' rest with
  | some fragment =>
    ({ impl with fragment := substrFrom rest (fragment + 1) }, substr rest 0 fragment)
  | none => ({ impl with fragment := [] }, rest)

/-- models the query step of Uri::ParseFromString, as the fragment step but
    with the question mark. -/
def splitQuery (impl : Impl) (rest : Str) : Impl × Str :=
  match strFind '?' rest with
  | some query =>
    ({ impl with query := substrFrom rest (query + 1) }, substr rest 0 query)
  | none => ({ impl with query := [] }, rest)

/-- models the path for-loop of Uri::ParseFromString: repeatedly find a slash,
    push the text before it and continue after it; when no slash remains push
    the whole rest and stop.  The fuel only bounds the recursion; every
    iteration shortens the string, so fuel length + 1 is never exhausted. -/
def pathLoopFuel : Nat → Str → List Str
  | 0, rest => [rest]
  | fuel + 1, rest =>
    match strFind '/' rest with
    | none => [rest]
    | some pathDelimiter =>
      substr rest 0 pathDelimiter :: pathLoopFuel fuel (substrFrom rest (pathDelimiter + 1))

/-- the path loop started with enough fuel. -/
def pathLoop (rest : Str) : List Str := pathLoopFuel (rest.length + 1) rest

/-- models the path step of Uri::ParseFromString: clear the path, special-case
    the single slash to one empty segment, tokenize a non-empty rest with the
    loop, and leave an empty rest as the empty sequence. -/
def pathStage (rest : Str) : List Str :=
  if rest = ['/'] then [[]]
  else if rest ≠ [] then pathLoop rest
  else []

/-- models the tail of Uri::ParseFromString after the scheme has been parsed
    and stored: authority extraction and component parsing, then the fragment,
    query and path steps on the remainder. -/
def parseAfterScheme (impl : Impl) (rest : Str) : Option (Bool × Impl) :=
  let a := parseAuthority rest
  match parseAuthorityComponents impl a.1 with
  | none => none
  | some (false, impl2) => some (false, impl2)
  | some (true, impl2) =>
    let rest2 := substrFrom rest a.2
    let f := splitFragment impl2 rest2
    let q := splitQuery f.1 f.2
    some (true, { q.1 with path := pathStage q.2 })

/-- models bool Uri::ParseFromString(uriString) of the complete variant as a
    state transformer: some (success, newState); none models a C++ exception
    escaping the call (only possible from the userinfo decode loop). -/
def ParseFromString (impl : Impl) (uriString : Str) : Option (Bool × Impl) :=
  match parseScheme uriString with
  | none => some (false, impl)
  | some r => parseAfterScheme { impl with scheme := r.1 } (substrFrom uriString r.2)

/-- models bool Uri::ContainsRelativePath(): true for an empty path, otherwise
    the negation of the emptiness of the first segment. -/
def ContainsRelativePath (impl : Impl) : Bool :=
  match impl.path with
  | [] => true
  | s :: _ => !s.isEmpty

/-- decimal value of a digit string accumulated from a starting value, the
    mathematical reading of the port digit loop. -/
def decValFrom (acc : Nat) (s : Str) : Nat :=
  s.foldl (fun a c => a * 10 + (c.toNat - '0'.toNat)) acc

/-- decimal value of a digit string. -/
def decVal (s : Str) : Nat := decValFrom 0 s

/-- the failure condition claimed for the port text: some character is not a
    digit, or the decimal value accumulated over some prefix exceeds 65535. -/
def badPort (t : Str) : Prop :=
  (∃ c ∈ t, isDigitCh c = false) ∨
    (∃ n ≤ t.length, (∀ c ∈ t.take n, isDigitCh c = true) ∧ 65535 < decVal (t.take n))

instance (t : Str) : Decidable (badPort t) := by
  unfold badPort
  infer_instance

/-- written from the claim wording, not from the code: splitting a string on
    every slash, preserving empty segments, the text after the last slash being
    the final segment. -/
def splitSegs : Str → List Str
  | [] => [[]]
  | c :: rest =>
    if c = '/' then [] :: splitSegs rest
    else
      match splitSegs rest with
      | s :: ss => (c :: s) :: ss
      | [] => [[c]]

/-- written from the claim wording, not from the code: left-to-right,
    non-overlapping percent-decoding, in which a byte produced by decoding is
    never re-interpreted as the start of a new escape. -/
def specPctDecode : Str → Str
  | [] => []
  | '%' :: a :: b :: rest =>
    if isHexDigitCh a && isHexDigitCh b then
      Char.ofNat (16 * hexDigitVal a + hexDigitVal b) :: specPctDecode rest
    else '%' :: specPctDecode (a :: b :: rest)
  | c :: rest => c :: specPctDecode rest

/-- written from the claim wording, not from the code: the (fragment, query,
    path) produced by sending a string through only the fragment, query and
    path stages. -/
def pqfOnly (rest : Str) : Str × Str × List Str :=
  let f := splitFragment implInit rest
  let q := splitQuery f.1 f.2
  (q.1.fragment, q.1.query, pathStage q.2)

/-- the schemeless condition of claim five: no colon occurs before any slash,
    that is, either there is no colon at all or the first slash comes before
    the first colon. -/
def noColonBeforeSlash (uri : Str) : Bool :=
  match strFind ':' uri with
  | none => true
  | some i =>
    match strFind '/' uri with
    | some d => decide (d < i)
    | none => false

theorem strFind_some_lt {c : Char} : ∀ {l : Str} {i : Nat}, strFind c l = some i → i < l.length := by
  intro l
  induction l with
  | nil => intro i h; simp [strFind] at h
  | cons x xs ih =>
    intro i h
    by_cases hx : x = c
    · simp [strFind, hx] at h
      subst h
      simp
    · simp [strFind, hx, Option.map_eq_some'] at h
      obtain ⟨j, hj, rfl⟩ := h
      have := ih hj
      simp
      omega

theorem strFind_none_iff {c : Char} : ∀ {l : Str}, strFind c l = none ↔ c ∉ l := by
  intro l
  induction l with
  | nil => simp [strFind]
  | cons x xs ih =>
    by_cases hx : x = c
    · simp [strFind, hx]
    · simp [strFind, hx, ih, Ne.symm hx]

theorem strFind_some_mem {c : Char} {l : Str} {i : Nat} (h : strFind c l = some i) :
    c ∈ l := by
  by_contra hc
  rw [← strFind_none_iff] at hc
  rw [h] at hc
  cases hc

theorem strFind_drop_eq {c : Char} :
    ∀ {l : Str} {i : Nat}, strFind c l = some i → l.drop i = c :: l.drop (i + 1) := by
  intro l
  induction l with
  | nil => intro i h; simp [strFind] at h
  | cons x xs ih =>
    intro i h
    by_cases hx : x = c
    · simp [strFind, hx] at h
      subst hx
      simp [← h]
    · simp [strFind, hx, Option.map_eq_some'] at h
      obtain ⟨j, hj, rfl⟩ := h
      simpa using ih hj

theorem strFind_take_not_mem {c : Char} :
    ∀ {l : Str} {i : Nat}, strFind c l = some i → c ∉ l.take i := by
  intro l
  induction l with
  | nil => intro i h; simp [strFind] at h
  | cons x xs ih =>
    intro i h
    by_cases hx : x = c
    · simp [strFind, hx] at h
      simp [← h]
    · simp [strFind, hx, Option.map_eq_some'] at h
      obtain ⟨j, hj, rfl⟩ := h
      simp [Ne.symm hx, ih hj]

theorem strFind_take_eq_takeWhile {c : Char} :
    ∀ {l : Str} {i : Nat}, strFind c l = some i →
      l.take i = l.takeWhile (fun x => x != c) := by
  intro l
  induction l with
  | nil => intro i h; simp [strFind] at h
  | cons x xs ih =>
    intro i h
    by_cases hx : x = c
    · simp [strFind, hx] at h
      subst hx
      simp [← h]
    · simp [strFind, hx, Option.map_eq_some'] at h
      obtain ⟨j, hj, rfl⟩ := h
      simp [hx, ih hj]

theorem strFind_drop_eq_dropWhile_tail {c : Char} :
    ∀ {l : Str} {i : Nat}, strFind c l = some i →
      l.drop (i + 1) = (l.dropWhile (fun x => x != c)).tail := by
  intro l
  induction l with
  | nil => intro i h; simp [strFind] at h
  | cons x xs ih =>
    intro i h
    by_cases hx : x = c
    · simp [strFind, hx] at h
      subst hx
      simp [← h]
    · simp [strFind, hx, Option.map_eq_some'] at h
      obtain ⟨j, hj, rfl⟩ := h
      simp [hx, ih hj]

theorem takeWhile_of_not_mem {c : Char} :
    ∀ {l : Str}, c ∉ l → l.takeWhile (fun x => x != c) = l := by
  intro l
  induction l with
  | nil => simp
  | cons x xs ih =>
    intro h
    simp at h
    simp [Ne.symm h.1, ih h.2]

theorem digit_cond_iff {c : Char} :
    (decide (c < '0') || decide ('9' < c)) = false ↔ isDigitCh c = true := by
  simp [isDigitCh, not_lt]

theorem isDigitCh_toNat {c : Char} (h : isDigitCh c = true) :
    48 ≤ c.toNat ∧ c.toNat ≤ 57 := by
  simp [isDigitCh] at h
  obtain ⟨h1, h2⟩ := h
  rw [Char.le_def, UInt32.le_def, BitVec.le_def] at h1 h2
  exact ⟨h1, h2⟩

theorem mask_check {v : Nat} (hv : v < 4294967296) : v &&& 4294901760 = 0 ↔ v < 65536 := by
  have hmask : (4294901760 : Nat) = (2 ^ 16 - 1) <<< 16 := by norm_num [Nat.shiftLeft_eq]
  constructor
  · intro h0
    have hb : ∀ i, i ≥ 16 → v.testBit i = false := by
      intro i hi
      by_cases h32 : 32 ≤ i
      · exact Nat.testBit_lt_two_pow
          (lt_of_lt_of_le hv (Nat.pow_le_pow_right (by norm_num : 0 < 2) h32))
      · have hmaskbit : (4294901760 : Nat).testBit i = true := by
          rw [hmask, Nat.testBit_shiftLeft, Nat.testBit_two_pow_sub_one]
          have h1 : i ≥ 16 := hi
          have h2 : i - 16 < 16 := by omega
          simp [h1, h2]
        have hcong := congrArg (fun x => Nat.testBit x i) h0
        simp only [Nat.testBit_and, Nat.zero_testBit, hmaskbit, Bool.and_true] at hcong
        exact hcong
    have := Nat.lt_pow_two_of_testBit v hb
    simpa using this
  · intro hlt
    apply Nat.eq_of_testBit_eq
    intro i
    simp only [Nat.testBit_and, Nat.zero_testBit]
    by_cases hi : 16 ≤ i
    · have hv16 : v.testBit i = false := Nat.testBit_lt_two_pow
        (lt_of_lt_of_le hlt (Nat.pow_le_pow_right (by norm_num : 0 < 2) hi))
      simp [hv16]
    · have hm : (4294901760 : Nat).testBit i = false := by
        rw [hmask, Nat.testBit_shiftLeft]
        simp [hi]
      simp [hm]

theorem decValFrom_cons (acc : Nat) (c : Char) (rest : Str) :
    decValFrom acc (c :: rest) = decValFrom (acc * 10 + (c.toNat - 48)) rest := rfl

theorem le_decValFrom : ∀ (s : Str) (acc : Nat), acc ≤ decValFrom acc s := by
  intro s
  induction s with
  | nil => intro acc; simp [decValFrom]
  | cons c rest ih =>
    intro acc
    rw [decValFrom_cons]
    calc acc ≤ acc * 10 + (c.toNat - 48) := by omega
    _ ≤ _ := ih _

theorem portLoop_some : ∀ (s : Str) (acc : Nat), acc ≤ 65535 →
    (∀ c ∈ s, isDigitCh c = true) → decValFrom acc s ≤ 65535 →
    portLoop acc s = some (decValFrom acc s) := by
  intro s
  induction s with
  | nil => intro acc _ _ _; simp [portLoop, decValFrom]
  | cons c rest ih =>
    intro acc hacc hdig hle
    have hc : isDigitCh c = true := hdig c (by simp)
    have hcond : (decide (c < '0') || decide ('9' < c)) = false := digit_cond_iff.mpr hc
    have hb := isDigitCh_toNat hc
    rw [decValFrom_cons] at hle
    have h2 := le_decValFrom rest (acc * 10 + (c.toNat - 48))
    have hv : acc * 10 + (c.toNat - 48) ≤ 65535 := by omega
    have hmod : (acc * 10 + (c.toNat - 48)) % 4294967296 = acc * 10 + (c.toNat - 48) :=
      Nat.mod_eq_of_lt (by omega)
    have hmask0 : (acc * 10 + (c.toNat - 48)) &&& 4294901760 = 0 :=
      (mask_check (by omega)).mpr (by omega)
    have hrec := ih _ hv (fun x hx => hdig x (by simp [hx])) hle
    rw [decValFrom_cons]
    simp [portLoop, hcond, hmod, hmask0, hrec]

theorem portLoop_none : ∀ (s : Str) (acc : Nat), acc ≤ 65535 →
    ((∃ c ∈ s, isDigitCh c = false) ∨
      (∃ n ≤ s.length, (∀ c ∈ s.take n, isDigitCh c = true) ∧
        65535 < decValFrom acc (s.take n))) →
    portLoop acc s = none := by
  intro s
  induction s with
  | nil =>
    intro acc hacc h
    rcases h with ⟨c, hc, _⟩ | ⟨n, _, _, hgt⟩
    · simp at hc
    · simp [decValFrom] at hgt
      omega
  | cons c rest ih =>
    intro acc hacc h
    by_cases hc : isDigitCh c = true
    case neg =>
      have hcond : (decide (c < '0') || decide ('9' < c)) = true := by
        cases hdc : (decide (c < '0') || decide ('9' < c))
        · exact absurd (digit_cond_iff.mp hdc) hc
        · rfl
      simp [portLoop, hcond]
    case pos =>
      have hcond : (decide (c < '0') || decide ('9' < c)) = false := digit_cond_iff.mpr hc
      have hb := isDigitCh_toNat hc
      have hmod : (acc * 10 + (c.toNat - 48)) % 4294967296 = acc * 10 + (c.toNat - 48) :=
        Nat.mod_eq_of_lt (by omega)
      by_cases hvle : acc * 10 + (c.toNat - 48) ≤ 65535
      · have hmask0 : (acc * 10 + (c.toNat - 48)) &&& 4294901760 = 0 :=
          (mask_check (by omega)).mpr (by omega)
        have hrec : portLoop (acc * 10 + (c.toNat - 48)) rest = none := by
          apply ih _ hvle
          rcases h with ⟨x, hx, hxd⟩ | ⟨n, hn, hdign, hgt⟩
          · left
            refine ⟨x, ?_, hxd⟩
            rcases List.mem_cons.mp hx with rfl | hx2
            · rw [hc] at hxd; cases hxd
            · exact hx2
          · right
            cases n with
            | zero =>
              simp [decValFrom] at hgt
              omega
            | succ m =>
              refine ⟨m, by simpa using hn, ?_, ?_⟩
              · intro x hx
                exact hdign x (by simp [hx])
              · have heq : decValFrom acc ((c :: rest).take (m + 1)) =
                    decValFrom (acc * 10 + (c.toNat - 48)) (rest.take m) := by
                  simp [decValFrom_cons]
                omega
        simp [portLoop, hcond, hmod, hmask0, hrec]
      · have hmaskne : ¬(acc * 10 + (c.toNat - 48)) &&& 4294901760 = 0 := by
          intro h0
          have := (mask_check (show acc * 10 + (c.toNat - 48) < 4294967296 by omega)).mp h0
          omega
        simp [portLoop, hcond, hmod, hmaskne]

theorem splitSegs_of_not_mem : ∀ {l : Str}, '/' ∉ l → splitSegs l = [l] := by
  intro l
  induction l with
  | nil => intro _; rfl
  | cons c rest ih =>
    intro h
    simp at h
    obtain ⟨h1, h2⟩ := h
    simp [splitSegs, Ne.symm h1, ih h2]

theorem splitSegs_append : ∀ {a : Str} (b : Str), '/' ∉ a →
    splitSegs (a ++ '/' :: b) = a :: splitSegs b := by
  intro a
  induction a with
  | nil => intro b _; simp [splitSegs]
  | cons x a2 ih =>
    intro b h
    simp at h
    obtain ⟨h1, h2⟩ := h
    simp [splitSegs, Ne.symm h1, ih b h2]

theorem pathLoopFuel_eq_splitSegs :
    ∀ (fuel : Nat) (l : Str), l.length < fuel → pathLoopFuel fuel l = splitSegs l := by
  intro fuel
  induction fuel with
  | zero => intro l h; omega
  | succ f ih =>
    intro l h
    cases hf : strFind '/' l with
    | none =>
      have hm : '/' ∉ l := strFind_none_iff.mp hf
      simp [pathLoopFuel, hf, splitSegs_of_not_mem hm]
    | some i =>
      have hi := strFind_some_lt hf
      have hdecomp : l = l.take i ++ '/' :: l.drop (i + 1) := by
        conv_lhs => rw [← List.take_append_drop i l]
        rw [strFind_drop_eq hf]
      have hnm : '/' ∉ l.take i := strFind_take_not_mem hf
      have hlen : (l.drop (i + 1)).length < f := by
        simp
        omega
      simp only [pathLoopFuel, hf]
      have hsub : substr l 0 i = l.take i := by simp [substr]
      have hsub2 : substrFrom l (i + 1) = l.drop (i + 1) := rfl
      rw [hsub, hsub2, ih _ hlen]
      conv_rhs => rw [hdecomp]
      rw [splitSegs_append _ hnm]

theorem pathLoop_eq_splitSegs (l : Str) : pathLoop l = splitSegs l :=
  pathLoopFuel_eq_splitSegs _ _ (by omega)

theorem splitFragment_hasPort (impl : Impl) (rest : Str) :
    ((splitFragment impl rest).1).hasPort = impl.hasPort := by
  cases hs : strFind '#' rest <;> simp [splitFragment, hs]

theorem splitFragment_port (impl : Impl) (rest : Str) :
    ((splitFragment impl rest).1).port = impl.port := by
  cases hs : strFind '#' rest <;> simp [splitFragment, hs]

theorem splitFragment_scheme (impl : Impl) (rest : Str) :
    ((splitFragment impl rest).1).scheme = impl.scheme := by
  cases hs : strFind '#' rest <;> simp [splitFragment, hs]

theorem splitQuery_hasPort (impl : Impl) (rest : Str) :
    ((splitQuery impl rest).1).hasPort = impl.hasPort := by
  cases hs : strFind '?' rest <;> simp [splitQuery, hs]

theorem splitQuery_port (impl : Impl) (rest : Str) :
    ((splitQuery impl rest).1).port = impl.port := by
  cases hs : strFind '?' rest <;> simp [splitQuery, hs]

theorem splitQuery_scheme (impl : Impl) (rest : Str) :
    ((splitQuery impl rest).1).scheme = impl.scheme := by
  cases hs : strFind '?' rest <;> simp [splitQuery, hs]

theorem splitFragment_fragment (impl : Impl) (rest : Str) :
    ((splitFragment impl rest).1).fragment =
      if '#' ∈ rest then (rest.dropWhile (fun x => x != '#')).tail else [] := by
  cases hs : strFind '#' rest with
  | none =>
    have hm : '#' ∉ rest := strFind_none_iff.mp hs
    simp [splitFragment, hs, hm]
  | some i =>
    have hm : '#' ∈ rest := strFind_some_mem hs
    simp only [splitFragment, hs, if_pos hm]
    exact strFind_drop_eq_dropWhile_tail hs

theorem splitFragment_rest (impl : Impl) (rest : Str) :
    (splitFragment impl rest).2 = rest.takeWhile (fun x => x != '#') := by
  cases hs : strFind '#' rest with
  | none =>
    have hm : '#' ∉ rest := strFind_none_iff.mp hs
    simp [splitFragment, hs, takeWhile_of_not_mem hm]
  | some i =>
    simp only [splitFragment, hs]
    have : substr rest 0 i = rest.take i := by simp [substr]
    rw [this]
    exact strFind_take_eq_takeWhile hs

theorem splitQuery_query (impl : Impl) (rest : Str) :
    ((splitQuery impl rest).1).query =
      if '?' ∈ rest then (rest.dropWhile (fun x => x != '?')).tail else [] := by
  cases hs : strFind '?' rest with
  | none =>
    have hm : '?' ∉ rest := strFind_none_iff.mp hs
    simp [splitQuery, hs, hm]
  | some i =>
    have hm : '?' ∈ rest := strFind_some_mem hs
    simp only [splitQuery, hs, if_pos hm]
    exact strFind_drop_eq_dropWhile_tail hs

theorem splitQuery_rest (impl : Impl) (rest : Str) :
    (splitQuery impl rest).2 = rest.takeWhile (fun x => x != '?') := by
  cases hs : strFind '?' rest with
  | none =>
    have hm : '?' ∉ rest := strFind_none_iff.mp hs
    simp [splitQuery, hs, takeWhile_of_not_mem hm]
  | some i =>
    simp only [splitQuery, hs]
    have : substr rest 0 i = rest.take i := by simp [substr]
    rw [this]
    exact strFind_take_eq_takeWhile hs

theorem splitQuery_fragment (impl : Impl) (rest : Str) :
    ((splitQuery impl rest).1).fragment = impl.fragment := by
  cases hs : strFind '?' rest <;> simp [splitQuery, hs]

theorem userInfoResult_scheme {impl : Impl} {auth : Str} {r : Bool × Impl × Nat}
    (h : userInfoResult impl auth = some r) : r.2.1.scheme = impl.scheme := by
  cases hf : strFind '@' auth with
  | none =>
    simp only [userInfoResult, hf] at h
    cases h
    rfl
  | some d =>
    simp only [userInfoResult, hf] at h
    by_cases hm : userInfoMatches (substr auth 0 d) = true
    · rw [if_pos hm] at h
      cases hd : decodePct (substr auth 0 d) with
      | none => rw [hd] at h; cases h
      | some dec =>
        rw [hd] at h
        cases h
        rfl
    · rw [if_neg hm] at h
      cases h
      rfl

theorem portHostResult_scheme (impl : Impl) (auth : Str) (n : Nat) :
    ((portHostResult impl auth n).2).scheme = impl.scheme := by
  cases hf : strFindFrom ':' auth n with
  | none => simp [portHostResult, hf]
  | some d =>
    cases hp : portLoop 0 (substrFrom auth (d + 1)) with
    | none => simp [portHostResult, hf, hp]
    | some v => simp [portHostResult, hf, hp]

theorem parseAuthorityComponents_scheme {impl : Impl} {auth : Str} {r : Bool × Impl}
    (h : parseAuthorityComponents impl auth = some r) : r.2.scheme = impl.scheme := by
  unfold parseAuthorityComponents at h
  cases hu : userInfoResult impl auth with
  | none => rw [hu] at h; cases h
  | some r1 =>
    rw [hu] at h
    obtain ⟨b1, impl1, k⟩ := r1
    have hs : impl1.scheme = impl.scheme := userInfoResult_scheme hu
    cases b1
    · cases h
      exact hs
    · cases h
      rw [portHostResult_scheme]
      exact hs

theorem parseAfterScheme_scheme {impl : Impl} {rest : Str} {b : Bool} {s : Impl}
    (h : parseAfterScheme impl rest = some (b, s)) : s.scheme = impl.scheme := by
  simp only [parseAfterScheme] at h
  cases hc : parseAuthorityComponents impl (parseAuthority rest).1 with
  | none => rw [hc] at h; cases h
  | some r =>
    rw [hc] at h
    obtain ⟨b2, impl2⟩ := r
    have hs : impl2.scheme = impl.scheme := parseAuthorityComponents_scheme hc
    cases b2
    · cases h
      exact hs
    · cases h
      simp [splitQuery_scheme, splitFragment_scheme, hs]

theorem parse_false_of_portLoop (impl : Impl) (uri sch : Str) (n : Nat) (auth : Str)
    (m k d : Nat) (impl1 : Impl)
    (h1 : parseScheme uri = some (sch, n))
    (h2 : parseAuthority (substrFrom uri n) = (auth, m))
    (h3 : userInfoResult { impl with scheme := sch } auth = some (true, impl1, k))
    (h4 : strFindFrom ':' auth k = some d)
    (hp : portLoop 0 (substrFrom auth (d + 1)) = none) :
    ParseFromString impl uri = some (false, impl1) := by
  have hph : portHostResult impl1 auth k = (false, impl1) := by
    simp [portHostResult, h4, hp]
  have hcomp : parseAuthorityComponents { impl with scheme := sch } auth = some (false, impl1) := by
    simp [parseAuthorityComponents, h3, hph]
  simp [ParseFromString, h1, parseAfterScheme, h2, hcomp]

theorem parseAfterScheme_true {impl : Impl} {rest : Str} {implA : Impl}
    (hc : parseAuthorityComponents impl (parseAuthority rest).1 = some (true, implA)) :
    ∃ s, parseAfterScheme impl rest = some (true, s) ∧
      s.hasPort = implA.hasPort ∧ s.port = implA.port := by
  simp only [parseAfterScheme, hc]
  exact ⟨_, rfl,
    by rw [splitQuery_hasPort, splitFragment_hasPort],
    by rw [splitQuery_port, splitFragment_port]⟩

theorem parse_true_of_portLoop (impl : Impl) (uri sch : Str) (n : Nat) (auth : Str)
    (m k d : Nat) (impl1 : Impl) (v : Nat)
    (h1 : parseScheme uri = some (sch, n))
    (h2 : parseAuthority (substrFrom uri n) = (auth, m))
    (h3 : userInfoResult { impl with scheme := sch } auth = some (true, impl1, k))
    (h4 : strFindFrom ':' auth k = some d)
    (hp : portLoop 0 (substrFrom auth (d + 1)) = some v) :
    ∃ impl2, ParseFromString impl uri = some (true, impl2) ∧
      impl2.hasPort = true ∧ impl2.port = v % 65536 := by
  have hph : portHostResult impl1 auth k =
      (true, { impl1 with port := v % 65536, hasPort := true,
                          host := substr auth k (d - k) }) := by
    simp [portHostResult, h4, hp]
  have hcomp : parseAuthorityComponents { impl with scheme := sch }
      (parseAuthority (substrFrom uri n)).1 =
      some (true, { impl1 with port := v % 65536, hasPort := true,
                               host := substr auth k (d - k) }) := by
    rw [h2]
    simp [parseAuthorityComponents, h3, hph]
  obtain ⟨s, hs, hhp, hport⟩ := parseAfterScheme_true hcomp
  refine ⟨s, ?_, ?_, ?_⟩
  · simp only [ParseFromString, h1]
    exact hs
  · rw [hhp]
  · rw [hport]

/-- Claim C7: path tokenization of the final remainder maps the empty string to
    the empty segment sequence, the single slash to one empty segment, "/foo" to
    ["", "foo"], "foo/" to ["foo", ""], and in general any non-empty remainder
    other than the single slash is split on every slash with empty segments
    preserved and the text after the last slash pushed as the final segment. -/
theorem c7_path_tokenization :
    pathStage ([] : Str) = [] ∧
    pathStage ['/'] = [[]] ∧
    pathStage ("/foo".toList) = [[], "foo".toList] ∧
    pathStage ("foo/".toList) = ["foo".toList, []] ∧
    (∀ rest : Str, rest ≠ [] → rest ≠ ['/'] → pathStage rest = splitSegs rest) := by
  refine ⟨by decide, by decide, by decide, by decide, ?_⟩
  intro rest h1 h2
  simp [pathStage, h1, h2, pathLoop_eq_splitSegs]

/-- Witness for claim C7 at the concrete remainder "a//b". -/
theorem c7_path_tokenization_w :
    ("a//b".toList ≠ ([] : Str)) ∧ ("a//b".toList ≠ ['/']) ∧
      pathStage ("a//b".toList) = splitSegs ("a//b".toList) :=
  ⟨by decide, by decide, c7_path_tokenization.2.2.2.2 _ (by decide) (by decide)⟩

/-- Claim C9: ContainsRelativePath returns true exactly when the path sequence
    is empty or its first segment is non-empty, and false exactly when the
    first segment is the empty string; on parses of "/" and "/foo" it is false,
    and on parses of "foo/", "", "//example.com" and "http://example.com" it is
    true. -/
theorem c9_contains_relative_path :
    (∀ impl : Impl,
      (ContainsRelativePath impl = true ↔
        impl.path = [] ∨ ∃ s rest, impl.path = s :: rest ∧ s ≠ []) ∧
      (ContainsRelativePath impl = false ↔ ∃ rest, impl.path = [] :: rest)) ∧
    ((ParseFromString implInit ("/".toList)).map
      (fun r => (r.1, ContainsRelativePath r.2))) = some (true, false) ∧
    ((ParseFromString implInit ("/foo".toList)).map
      (fun r => (r.1, ContainsRelativePath r.2))) = some (true, false) ∧
    ((ParseFromString implInit ("foo/".toList)).map
      (fun r => (r.1, ContainsRelativePath r.2))) = some (true, true) ∧
    ((ParseFromString implInit ([] : Str)).map
      (fun r => (r.1, ContainsRelativePath r.2))) = some (true, true) ∧
    ((ParseFromString implInit ("//example.com".toList)).map
      (fun r => (r.1, ContainsRelativePath r.2))) = some (true, true) ∧
    ((ParseFromString implInit ("http://example.com".toList)).map
      (fun r => (r.1, ContainsRelativePath r.2))) = some (true, true) := by
  refine ⟨?_, by decide, by decide, by decide, by decide, by decide, by decide⟩
  intro impl
  constructor
  · cases h : impl.path with
    | nil => simp [ContainsRelativePath, h]
    | cons s r =>
      cases s with
      | nil => simp [ContainsRelativePath, h]
      | cons c cs => simp [ContainsRelativePath, h]
  · cases h : impl.path with
    | nil => simp [ContainsRelativePath, h]
    | cons s r =>
      cases s with
      | nil => simp [ContainsRelativePath, h]
      | cons c cs => simp [ContainsRelativePath, h]

/-- Claim C6: on the remainder after authority removal the fragment split runs
    before the query split: the fragment is everything after the first hash
    (empty if none) and the remainder truncates to everything before it, and
    only then is the query taken as everything after the first question mark of
    the truncated remainder; so "p?q#f" parses with query "q" and fragment "f",
    while "p#f?q" parses with fragment "f?q" and empty query. -/
theorem c6_fragment_then_query :
    (∀ (impl : Impl) (rest : Str),
      (splitFragment impl rest).2 = rest.takeWhile (fun x => x != '#') ∧
      ((splitQuery (splitFragment impl rest).1 (splitFragment impl rest).2).1).fragment =
        (if '#' ∈ rest then (rest.dropWhile (fun x => x != '#')).tail else []) ∧
      ((splitQuery (splitFragment impl rest).1 (splitFragment impl rest).2).1).query =
        (if '?' ∈ rest.takeWhile (fun x => x != '#') then
          ((rest.takeWhile (fun x => x != '#')).dropWhile (fun x => x != '?')).tail
        else []) ∧
      (splitQuery (splitFragment impl rest).1 (splitFragment impl rest).2).2 =
        (rest.takeWhile (fun x => x != '#')).takeWhile (fun x => x != '?')) ∧
    ((ParseFromString implInit ("p?q#f".toList)).map
      (fun r => (r.1, r.2.query, r.2.fragment))) = some (true, "q".toList, "f".toList) ∧
    ((ParseFromString implInit ("p#f?q".toList)).map
      (fun r => (r.1, r.2.query, r.2.fragment))) = some (true, [], "f?q".toList) := by
  refine ⟨?_, by decide, by decide⟩
  intro impl rest
  refine ⟨splitFragment_rest impl rest, ?_, ?_, ?_⟩
  · rw [splitQuery_fragment, splitFragment_fragment]
  · rw [splitQuery_query, splitFragment_rest]
  · rw [splitQuery_rest, splitFragment_rest]

/-- Claim C3: whenever a colon is accepted as the scheme delimiter (a colon
    exists and no slash precedes it), the candidate text before it is validated
    against the scheme grammar, and a non-matching candidate makes the whole
    ParseFromString call return false, as on "1http://x" and "ht tp://x". -/
theorem c3_scheme_validation :
    (∀ (impl : Impl) (uri : Str) (i : Nat),
      strFind ':' uri = some i →
      ((strFind '/' uri).all fun d => decide (i ≤ d)) = true →
      schemeMatches (substr uri 0 i) = false →
      ParseFromString impl uri = some (false, impl)) ∧
    ParseFromString implInit ("1http://x".toList) = some (false, implInit) ∧
    ParseFromString implInit ("ht tp://x".toList) = some (false, implInit) := by
  refine ⟨?_, by decide, by decide⟩
  intro impl uri i hc hs hm
  have hps : parseScheme uri = none := by
    simp only [parseScheme, hc]
    have hd : (match strFind '/' uri with
        | some dotSegment => decide (dotSegment < i)
        | none => false) = false := by
      cases hd2 : strFind '/' uri with
      | none => rfl
      | some d =>
        rw [hd2] at hs
        simp [Option.all] at hs
        simp [Nat.not_lt.mpr hs]
    simp [hd, hm]
  simp [ParseFromString, hps]

/-- Witness for claim C3 at the concrete input "9a://x". -/
theorem c3_scheme_validation_w :
    strFind ':' ("9a://x".toList) = some 2 ∧
    ((strFind '/' ("9a://x".toList)).all fun d => decide (2 ≤ d)) = true ∧
    schemeMatches (substr ("9a://x".toList) 0 2) = false ∧
    ParseFromString implInit ("9a://x".toList) = some (false, implInit) :=
  ⟨by decide, by decide, by decide,
    c3_scheme_validation.1 implInit _ 2 (by decide) (by decide) (by decide)⟩

/-- Counterexample to claim C5 as stated: "//h" has no colon before any slash
    and indeed parses with an empty scheme, but the full input is not treated
    as path+query+fragment: the authority stage consumes "//h" as an authority
    (host "h") and the parsed path is empty, while the fragment/query/path
    stages applied to the entire string would produce three path segments. -/
theorem c5_counterexample :
    noColonBeforeSlash ("//h".toList) = true ∧
    ((ParseFromString implInit ("//h".toList)).map
      (fun r => (r.1, r.2.scheme, r.2.host, r.2.path))) =
        some (true, [], "h".toList, []) ∧
    (pqfOnly ("//h".toList)).2.2 = [[], [], "h".toList] ∧
    (([] : List Str) ≠ [[], [], ("h".toList : Str)]) :=
  ⟨by decide, by decide, by decide, by decide⟩

/-- Claim C5 as amended: for every input with no colon before any slash the
    scheme stage accepts with an empty scheme and consumes nothing, so the
    entire input is passed on to the authority stage and then the
    fragment/query/path stages (an authority marker may still be split off
    there), and any parse outcome stores the empty scheme. -/
theorem c5_schemeless_full_input (impl : Impl) (uri : Str)
    (h : noColonBeforeSlash uri = true) :
    parseScheme uri = some ([], 0) ∧
    ParseFromString impl uri = parseAfterScheme { impl with scheme := [] } uri ∧
    (∀ b s, ParseFromString impl uri = some (b, s) → s.scheme = []) := by
  have hps : parseScheme uri = some ([], 0) := by
    unfold noColonBeforeSlash at h
    cases hc : strFind ':' uri with
    | none => simp [parseScheme, hc]
    | some i =>
      rw [hc] at h
      cases hd : strFind '/' uri with
      | none => rw [hd] at h; cases h
      | some d =>
        rw [hd] at h
        simp at h
        simp [parseScheme, hc, hd, h]
  have h2 : ParseFromString impl uri = parseAfterScheme { impl with scheme := [] } uri := by
    simp only [ParseFromString, hps]
    rfl
  refine ⟨hps, h2, ?_⟩
  intro b s hbs
  rw [h2] at hbs
  have := parseAfterScheme_scheme hbs
  simpa using this

/-- Witness for the amended claim C5 at the concrete input "/a:b". -/
theorem c5_schemeless_full_input_w :
    noColonBeforeSlash ("/a:b".toList) = true ∧
    (parseScheme ("/a:b".toList) = some ([], 0) ∧
     ParseFromString implInit ("/a:b".toList) =
       parseAfterScheme { implInit with scheme := [] } ("/a:b".toList) ∧
     (∀ b s, ParseFromString implInit ("/a:b".toList) = some (b, s) → s.scheme = [])) :=
  ⟨by decide, c5_schemeless_full_input implInit _ (by decide)⟩

/-- Claim C8: after a successful parse of a URI with userinfo, host and port, a
    subsequent successful parse of an authority-free URI on the same instance
    leaves userInfo and host empty and hasPort false: no field of the second
    result carries over from the first. -/
theorem c8_no_stale_authority (s0 s1 s2 : Impl)
    (h1 : ParseFromString s0 ("http://joe@www.example.com:8080/foo/bar".toList) =
      some (true, s1))
    (h2 : ParseFromString s1 ("/foo/bar".toList) = some (true, s2)) :
    s1.userInfo = "joe".toList ∧ s1.host = "www.example.com".toList ∧
      s1.hasPort = true ∧ s1.port = 8080 ∧
      s2.userInfo = [] ∧ s2.host = [] ∧ s2.hasPort = false := by
  have k1 : ParseFromString s0 ("http://joe@www.example.com:8080/foo/bar".toList) =
      some (true,
        ⟨"http".toList, "joe".toList, "www.example.com".toList, true, 8080,
          [[], "foo".toList, "bar".toList], [], []⟩) := rfl
  have k2 : ParseFromString s1 ("/foo/bar".toList) =
      some (true, ⟨[], [], [], false, 0, [[], "foo".toList, "bar".toList], [], []⟩) := rfl
  rw [k1] at h1
  rw [k2] at h2
  simp only [Option.some.injEq, Prod.mk.injEq, true_and] at h1 h2
  subst h1
  subst h2
  exact ⟨rfl, rfl, rfl, rfl, rfl, rfl, rfl⟩

/-- Witness for claim C8 at a freshly constructed instance. -/
theorem c8_no_stale_authority_w :
    ∃ s1 s2 : Impl,
      ParseFromString implInit ("http://joe@www.example.com:8080/foo/bar".toList) =
        some (true, s1) ∧
      ParseFromString s1 ("/foo/bar".toList) = some (true, s2) ∧
      s2.userInfo = [] ∧ s2.host = [] ∧ s2.hasPort = false := by
  refine ⟨_, _, rfl, rfl, ?_⟩
  exact (c8_no_stale_authority implInit _ _ rfl rfl).2.2.2.2

/-- Claim C1: when the authority contains a port delimiter colon after any
    userinfo, ParseFromString returns false exactly when the port text contains
    a non-digit character or the accumulated decimal value exceeds 65535 at
    some prefix, and otherwise succeeds with hasPort true and port equal to the
    decimal value of the port text; in particular the 32-bit unsigned
    accumulation with its per-digit range check never wraps past 2^32 back
    into range. -/
theorem c1_port_accumulation (impl : Impl) (uri sch : Str) (n : Nat) (auth : Str)
    (m k d : Nat) (impl1 : Impl)
    (h1 : parseScheme uri = some (sch, n))
    (h2 : parseAuthority (substrFrom uri n) = (auth, m))
    (h3 : userInfoResult { impl with scheme := sch } auth = some (true, impl1, k))
    (h4 : strFindFrom ':' auth k = some d) :
    (badPort (substrFrom auth (d + 1)) ↔
      ParseFromString impl uri = some (false, impl1)) ∧
    (¬ badPort (substrFrom auth (d + 1)) →
      ∃ impl2, ParseFromString impl uri = some (true, impl2) ∧
        impl2.hasPort = true ∧ impl2.port = decVal (substrFrom auth (d + 1))) := by
  have hcase : ¬ badPort (substrFrom auth (d + 1)) →
      portLoop 0 (substrFrom auth (d + 1)) = some (decVal (substrFrom auth (d + 1))) ∧
        decVal (substrFrom auth (d + 1)) ≤ 65535 := by
    intro hnb
    unfold badPort at hnb
    push_neg at hnb
    obtain ⟨hA, hB⟩ := hnb
    have hdig : ∀ c ∈ substrFrom auth (d + 1), isDigitCh c = true := by
      intro c hc
      cases hd2 : isDigitCh c
      · exact absurd hd2 (hA c hc)
      · rfl
    have hle : decVal (substrFrom auth (d + 1)) ≤ 65535 := by
      have hfull := hB (substrFrom auth (d + 1)).length (le_refl _)
      rw [List.take_length] at hfull
      exact hfull hdig
    exact ⟨portLoop_some _ 0 (by omega) hdig hle, hle⟩
  constructor
  · constructor
    · intro hbad
      have hnone : portLoop 0 (substrFrom auth (d + 1)) = none := by
        apply portLoop_none _ 0 (by omega)
        unfold badPort at hbad
        exact hbad
      exact parse_false_of_portLoop impl uri sch n auth m k d impl1 h1 h2 h3 h4 hnone
    · intro heq
      by_contra hnb
      obtain ⟨hsome, hle⟩ := hcase hnb
      obtain ⟨impl2, heq2, _, _⟩ :=
        parse_true_of_portLoop impl uri sch n auth m k d impl1 _ h1 h2 h3 h4 hsome
      rw [heq] at heq2
      simp at heq2
  · intro hnb
    obtain ⟨hsome, hle⟩ := hcase hnb
    obtain ⟨impl2, heq2, hhp, hport⟩ :=
      parse_true_of_portLoop impl uri sch n auth m k d impl1 _ h1 h2 h3 h4 hsome
    exact ⟨impl2, heq2, hhp, by rw [hport, Nat.mod_eq_of_lt (by omega)]⟩

/-- Witness for claim C1 at the concrete input "//h:80". -/
theorem c1_port_accumulation_w :
    ¬ badPort ("80".toList) ∧
    (∃ impl2, ParseFromString implInit ("//h:80".toList) = some (true, impl2) ∧
      impl2.hasPort = true ∧ impl2.port = decVal ("80".toList)) :=
  ⟨by decide,
    (c1_port_accumulation implInit _ [] 0 ("h:80".toList) 6 0 1 implInit
      (by decide) (by decide) (by decide) (by decide)).2 (by decide)⟩

/-- Claim C10: an authority whose port delimiter colon is its last character
    (empty port text) parses successfully with hasPort true and port 0, as on
    "http://host:" and "http://host:/x". -/
theorem c10_empty_port_text :
    (∀ (impl : Impl) (uri sch : Str) (n : Nat) (auth : Str) (m k d : Nat) (impl1 : Impl),
      parseScheme uri = some (sch, n) →
      parseAuthority (substrFrom uri n) = (auth, m) →
      userInfoResult { impl with scheme := sch } auth = some (true, impl1, k) →
      strFindFrom ':' auth k = some d →
      d + 1 = auth.length →
      ∃ impl2, ParseFromString impl uri = some (true, impl2) ∧
        impl2.hasPort = true ∧ impl2.port = 0) ∧
    ((ParseFromString implInit ("http://host:".toList)).map
      (fun r => (r.1, r.2.hasPort, r.2.port, r.2.host))) =
        some (true, true, 0, "host".toList) ∧
    ((ParseFromString implInit ("http://host:/x".toList)).map
      (fun r => (r.1, r.2.hasPort, r.2.port, r.2.host, r.2.path))) =
        some (true, true, 0, "host".toList, [[], "x".toList]) := by
  refine ⟨?_, by decide, by rfl⟩
  intro impl uri sch n auth m k d impl1 h1 h2 h3 h4 h5
  have hempty : substrFrom auth (d + 1) = [] := by
    unfold substrFrom
    rw [h5, List.drop_length]
  have hsome : portLoop 0 (substrFrom auth (d + 1)) = some 0 := by
    rw [hempty]
    rfl
  obtain ⟨impl2, heq, hhp, hport⟩ :=
    parse_true_of_portLoop impl uri sch n auth m k d impl1 0 h1 h2 h3 h4 hsome
  exact ⟨impl2, heq, hhp, by rw [hport]⟩

/-- Witness for claim C10 at the concrete input "//h:". -/
theorem c10_empty_port_text_w :
    ∃ impl2, ParseFromString implInit ("//h:".toList) = some (true, impl2) ∧
      impl2.hasPort = true ∧ impl2.port = 0 :=
  c10_empty_port_text.1 implInit _ [] 0 ("h:".toList) 4 0 1 implInit
    (by decide) (by decide) (by decide) (by decide) (by decide)

/-- Claim C2 fails on the code: the decode loop searches the whole string again
    after every replacement, so a byte produced by decoding is re-interpreted
    as the start of a new escape.  The valid userinfo "%2541" is stored as "A"
    although the claimed left-to-right non-overlapping decoding yields "%41",
    and on the valid userinfo "%25" the re-interpretation makes std::stoi throw
    (an uncaught exception instead of a successful parse). -/
theorem c2_decode_reinterprets :
    userInfoMatches ("%2541".toList) = true ∧
    specPctDecode ("%2541".toList) = "%41".toList ∧
    ((ParseFromString implInit ("//%2541@h".toList)).map
      (fun r => (r.1, r.2.userInfo, r.2.host))) = some (true, "A".toList, "h".toList) ∧
    ("A".toList ≠ "%41".toList) ∧
    userInfoMatches ("%25".toList) = true ∧
    specPctDecode ("%25".toList) = "%".toList ∧
    ParseFromString implInit ("//%25@h".toList) = none :=
  ⟨by decide, by decide, by decide, by decide, by decide, by decide, by decide⟩

/-- Claim C4 fails on the code: parseAuthority returns
    uri.substr(doubleForwardSlash + 2, authorityEnd - 2), whose length argument
    is only correct when the double slash sits at index 0.  On "x//host/p" the
    double slash is at index 1 and the first subsequent slash at index 7, so
    the claimed span is "host", but the code extracts "host/" and the stored
    host contains a slash. -/
theorem c4_authority_off_by_offset :
    parseAuthority ("x//host/p".toList) = ("host/".toList, 7) ∧
    substr ("x//host/p".toList) (1 + 2) (7 - (1 + 2)) = "host".toList ∧
    ((ParseFromString implInit ("x//host/p".toList)).map
      (fun r => (r.1, r.2.host, r.2.path))) = some (true, "host/".toList, [[], "p".toList]) ∧
    ('/' ∈ "host/".toList) :=
  ⟨by decide, by decide, by decide, by decide⟩

end UriModel
